import Mathlib

/-!
Verification development for the `will-it-blossom` conformance runner.

The file embeds the runner's pure core: the capability predicate
(`src/runner/capabilities.ts`), the JUnit-output extraction pipeline
(`src/runner/reporters/json-reporter.ts`), the feature-matrix row
computation (`src/runner/reporters/feature-matrix.ts`), the bounded
log-capture push of the process orchestrator, and the control flow of
`runTargetTests` (`src/runner/index.ts`).  Strings are modelled as
`List Char`; the JavaScript regular expressions of the reporter are
embedded as explicit scanning functions with the same leftmost-match,
greedy/lazy and backtracking behaviour.  Recursive scanners take an
explicit fuel argument (always called with `length + 1`) so that every
definition is structurally recursive and evaluates by `decide`.
-/

namespace WillItBlossom

/-- ASCII members of the JavaScript whitespace class used by the reporter
(`\s` in the attribute regex, `String.prototype.trim`). -/
def isJsSpace (c : Char) : Bool :=
  c = ' ' || c = '\t' || c = '\n' || c = '\r' || c = '\x0b' || c = '\x0c'

/-- JavaScript word character (`\w`, i.e. `[A-Za-z0-9_]`), used for the
word-boundary `\b` after literal tag openers. -/
def isWordChar (c : Char) : Bool :=
  ('a' ≤ c && c ≤ 'z') || ('A' ≤ c && c ≤ 'Z') || ('0' ≤ c && c ≤ '9') || c = '_'

/-- `startsWith p s` is true when `p` is a prefix of `s`. -/
def startsWith : List Char → List Char → Bool
  | [], _ => true
  | _ :: _, [] => false
  | p :: ps, c :: cs => p == c && startsWith ps cs

/-- Split a string at the leftmost occurrence of `pat`, returning the part
before the occurrence and the part after it; `none` when `pat` does not
occur.  This is the primitive all the embedded regex scanners are built
from. -/
def splitOnFirst (pat : List Char) : List Char → Option (List Char × List Char)
  | [] => none
  | c :: cs =>
    if startsWith pat (c :: cs) then some ([], (c :: cs).drop pat.length)
    else
      match splitOnFirst pat cs with
      | some (pre, post) => some (c :: pre, post)
      | none => none

/-- `pat` has no nontrivial border: no proper nonempty prefix of `pat` is
also a suffix of `pat`.  All literal tag patterns of the reporter satisfy
this; it makes leftmost-occurrence splitting compositional. -/
def NoBorder (pat : List Char) : Prop :=
  ∀ k < pat.length, 0 < k → pat.take k ≠ pat.drop (pat.length - k)

instance noBorderDecidable (pat : List Char) : Decidable (NoBorder pat) := by
  unfold NoBorder; infer_instance

/-! ## Literal tag patterns of the reporter regexes -/

def tcOpen : List Char := "<testcase".data

def tcClose : List Char := "</testcase>".data

def failOpen : List Char := "<failure".data

def failClose : List Char := "</failure>".data

def skipOpen : List Char := "<skipped".data

def skipClose : List Char := "</skipped>".data

def cdOpen : List Char := "<![CDATA[".data

def cdClose : List Char := "]]>".data

/-! ## Text decoding (`decodeHtml`, `cleanFailureText`) -/

/-- One global, sequential `String.prototype.replace(/pat/g, repl)` pass;
replacement text is not rescanned. -/
def replaceAll : Nat → List Char → List Char → List Char → List Char
  | 0, _, _, s => s
  | fuel + 1, pat, repl, s =>
    match splitOnFirst pat s with
    | none => s
    | some (pre, post) => pre ++ repl ++ replaceAll fuel pat repl post

def replaceAllTop (pat repl s : List Char) : List Char :=
  replaceAll (s.length + 1) pat repl s

/-- The single-quote character, kept out of string literals. -/
def apos : Char := '\''

/-- `decodeHtml` of the reporter: five sequential global replacements, in
source order (`&lt;` `&gt;` `&quot;` `&#039;` `&amp;`). -/
def decodeHtml (s : List Char) : List Char :=
  replaceAllTop "&amp;".data "&".data
    (replaceAllTop "&#039;".data [apos]
      (replaceAllTop "&quot;".data "\"".data
        (replaceAllTop "&gt;".data ">".data
          (replaceAllTop "&lt;".data "<".data s))))

/-- `String.prototype.trim` on its ASCII whitespace. -/
def jsTrim (s : List Char) : List Char :=
  ((s.dropWhile isJsSpace).reverse.dropWhile isJsSpace).reverse

/-- Global replacement of `<!\[CDATA\[([\s\S]*?)\]\]>` by its lazy group. -/
def stripCdata : Nat → List Char → List Char
  | 0, s => s
  | fuel + 1, s =>
    match splitOnFirst cdOpen s with
    | none => s
    | some (pre, r) =>
      match splitOnFirst cdClose r with
      | none => s
      | some (inner, rem) => pre ++ inner ++ stripCdata fuel rem

/-- `cleanFailureText` of the reporter: strip CDATA wrappers then trim;
`undefined` (`none`) or empty input yields the empty string. -/
def cleanFailureText (t : Option (List Char)) : List Char :=
  match t with
  | none => []
  | some s => if s.isEmpty then [] else jsTrim (stripCdata (s.length + 1) s)

/-! ## Durations (`parseDuration`) -/

def digitVal (c : Char) : Nat := c.toNat - '0'.toNat

def digitsToNat (ds : List Char) : Nat :=
  ds.foldl (fun a c => a * 10 + digitVal c) 0

/-- Value of the parsed decimal pieces — sign, integer digits, fraction
digits, base-10 exponent — as an exact scaled integer
`(mantissa, power)` with value `mantissa * 10 ^ power`. -/
def decimalValue (sgn : Int) (ip fp : List Char) (ex : Int) : Int × Int :=
  (sgn * (digitsToNat (ip ++ fp) : Int), ex - (fp.length : Int))

/-- Optional exponent part accepted by `Number.parseFloat`; the marker is
consumed only when at least one digit follows the optional sign. -/
def parseExponent (s : List Char) : Int :=
  let core : List Char → Option Int := fun r =>
    match r with
    | '+' :: ds =>
      let digs := ds.takeWhile Char.isDigit
      if digs.isEmpty then none else some (digitsToNat digs : Int)
    | '-' :: ds =>
      let digs := ds.takeWhile Char.isDigit
      if digs.isEmpty then none else some (-(digitsToNat digs : Int))
    | ds =>
      let digs := ds.takeWhile Char.isDigit
      if digs.isEmpty then none else some (digitsToNat digs : Int)
  match s with
  | 'e' :: rest => (core rest).getD 0
  | 'E' :: rest => (core rest).getD 0
  | _ => 0

/-- Model of `Number.parseFloat`: value of the longest numeric prefix
after optional leading whitespace and sign, as an exact scaled integer;
`none` models `NaN` and `±Infinity`, the cases `parseDuration` rejects
via `Number.isFinite`.  Values are exact decimals; the JavaScript doubles
agree at every value the claims exercise. -/
def jsParseFloat (s : List Char) : Option (Int × Int) :=
  let s1 := s.dropWhile isJsSpace
  let sgns : Int × List Char :=
    match s1 with
    | '+' :: r => (1, r)
    | '-' :: r => (-1, r)
    | _ => (1, s1)
  let sgn := sgns.1
  let s2 := sgns.2
  if startsWith "Infinity".data s2 then none
  else
    let ip := s2.takeWhile Char.isDigit
    let s3 := s2.dropWhile Char.isDigit
    match ip, s3 with
    | [], '.' :: r =>
      let fp := r.takeWhile Char.isDigit
      if fp.isEmpty then none
      else some (decimalValue sgn [] fp (parseExponent (r.dropWhile Char.isDigit)))
    | [], _ => none
    | _, '.' :: r =>
      let fp := r.takeWhile Char.isDigit
      some (decimalValue sgn ip fp (parseExponent (r.dropWhile Char.isDigit)))
    | _, _ => some (decimalValue sgn ip [] (parseExponent s3))

/-- `Math.round (n / d)` for `d > 0`: round half toward positive
infinity, i.e. `⌊(2n + d) / 2d⌋` with floor division. -/
def jsRoundFrac (n : Int) (d : Nat) : Int := Int.fdiv (2 * n + d) (2 * d)

/-- `Math.round (mant * 10 ^ pow * 1000)` computed exactly. -/
def roundMs (mant : Int) (pow : Int) : Int :=
  let p := pow + 3
  if 0 ≤ p then mant * (10 : Int) ^ p.toNat
  else jsRoundFrac mant ((10 : Nat) ^ (-p).toNat)

/-- `parseDuration` of the reporter: fractional seconds to rounded integer
milliseconds; `0` on a missing, empty, or non-finite value. -/
def parseDuration (value : Option String) : Int :=
  match value with
  | none => 0
  | some v =>
    if v.isEmpty then 0
    else
      match jsParseFloat v.data with
      | none => 0
      | some q => roundMs q.1 q.2

/-! ## Attributes (`parseAttributes`) -/

/-- One anchored match attempt of the attribute regex
`([^\s=]+)\s*=\s*(?:"([^"]*)"|` followed by the single-quoted variant `)`
at the current position: greedy key run, optional whitespace, `=`,
optional whitespace, then a quoted value. -/
def attrMatchAt (s : List Char) : Option (List Char × List Char × List Char) :=
  let key := s.takeWhile (fun c => !isJsSpace c && c != '=')
  if key.isEmpty then none
  else
    let r1 := (s.drop key.length).dropWhile isJsSpace
    match r1 with
    | '=' :: r2 =>
      let r3 := r2.dropWhile isJsSpace
      match r3 with
      | '"' :: r4 =>
        match splitOnFirst ['"'] r4 with
        | some (v, rem) => some (key, v, rem)
        | none => none
      | '\'' :: r4 =>
        match splitOnFirst [apos] r4 with
        | some (v, rem) => some (key, v, rem)
        | none => none
      | _ => none
    | _ => none

/-- Global scan of the attribute regex: leftmost matches; on failure the
search restarts one character later (JavaScript `exec` advance). -/
def parseAttributesLoop : Nat → List Char → List (String × String)
  | 0, _ => []
  | _ + 1, [] => []
  | fuel + 1, c :: cs =>
    match attrMatchAt (c :: cs) with
    | some (k, v, rem) => (String.mk k, String.mk v) :: parseAttributesLoop fuel rem
    | none => parseAttributesLoop fuel cs

/-- `parseAttributes` of the reporter, as the ordered list of key/value
assignments made to the result object. -/
def parseAttributes (fragment : List Char) : List (String × String) :=
  parseAttributesLoop (fragment.length + 1) fragment

/-- Lookup in a JS object built by sequential assignment: the last
assignment to a key wins; `none` models `undefined`. -/
def jsGet (attrs : List (String × String)) (k : String) : Option String :=
  match attrs.reverse.find? (fun p => p.1 == k) with
  | some p => some p.2
  | none => none

/-- JS `x || y` on an optional string: `undefined` and the empty string
are both falsy. -/
def jsOrElse (x : Option String) (y : String) : String :=
  match x with
  | some v => if v.isEmpty then y else v
  | none => y

/-! ## Failure and skip markers -/

/-- Anchored attempt of the failure regex right after the literal
`<failure`: word boundary, attribute fragment up to the first `>`, then a
body closed by the first `</failure>`. -/
def failMatchAt (r : List Char) : Option (List Char × List Char) :=
  if (r.head?.map isWordChar).getD false then none
  else
    match splitOnFirst ['>'] r with
    | none => none
    | some (pre, after) =>
      match splitOnFirst failClose after with
      | some (text, _) => some (pre, text)
      | none => none

/-- First match of `<failure\b([^>]*)>([\s\S]*?)<\/failure>` in a testcase
body: attribute fragment and raw inner text. -/
def findFailure : Nat → List Char → Option (List Char × List Char)
  | 0, _ => none
  | fuel + 1, s =>
    match splitOnFirst failOpen s with
    | none => none
    | some (_, r) =>
      match failMatchAt r with
      | some res => some res
      | none => findFailure fuel r

/-- Anchored attempt of the skipped regex right after the literal
`<skipped`: as for `failure`, but a self-closing `/>` (no inner text) is
accepted when no `</skipped>` follows. -/
def skipMatchAt (r : List Char) : Option (List Char × Option (List Char)) :=
  if (r.head?.map isWordChar).getD false then none
  else
    match splitOnFirst ['>'] r with
    | none => none
    | some (pre, after) =>
      match splitOnFirst skipClose after with
      | some (text, _) => some (pre, some text)
      | none =>
        if pre.getLast? = some '/' then some (pre.dropLast, none) else none

/-- First match of the skipped-marker regex in a testcase body. -/
def findSkipped : Nat → List Char → Option (List Char × Option (List Char))
  | 0, _ => none
  | fuel + 1, s =>
    match splitOnFirst skipOpen s with
    | none => none
    | some (_, r) =>
      match skipMatchAt r with
      | some res => some res
      | none => findSkipped fuel r

/-! ## Test records (`TestResult`, `parseTestCases`) -/

inductive TestStatus
  | passed
  | failed
  | skipped
deriving DecidableEq, Repr

structure TestError where
  message : String
  stack : Option String
deriving DecidableEq, Repr

/-- The reporter's `TestResult` record. -/
structure TestResult where
  id : String
  title : String
  file : String
  status : TestStatus
  durationMs : Int
  requirements : List String
  skipReason : Option String
  error : Option TestError
deriving DecidableEq, Repr

/-- `body.match(...)` against the failure regex. -/
def failureMarker (body : List Char) : Option (List Char × List Char) :=
  findFailure (body.length + 1) body

/-- `body.match(...)` against the skipped regex. -/
def skippedMarker (body : List Char) : Option (List Char × Option (List Char)) :=
  findSkipped (body.length + 1) body

/-- The id formula of the extractor:
`idBase = classname || name || test-(n+1)` (JS falsy `||`), then
`id = idBase # (name ?? n+1)`. -/
def recordIdOf (attrs : List (String × String)) (count : Nat) : String :=
  let nameAttr := jsGet attrs "name"
  let idBase := jsOrElse (jsGet attrs "classname")
    (jsOrElse nameAttr ("test-" ++ toString (count + 1)))
  idBase ++ "#" ++ (nameAttr.getD (toString (count + 1)))

/-- The error block of the extractor, applied to a failure match. -/
def errorOf (m : List Char × List Char) : TestError :=
  let failureAttrs := parseAttributes m.1
  let decodedFailure := String.mk (decodeHtml (cleanFailureText (some m.2)))
  let rawMessage := (jsGet failureAttrs "message").getD
    (if decodedFailure.isEmpty then "Test failed" else decodedFailure)
  { message := String.mk (decodeHtml rawMessage.data)
    stack := if decodedFailure.isEmpty then none else some decodedFailure }

/-- The reason computed in the skipped block of the extractor:
`skippedAttrs.message ?? cleanFailureText(skippedMatch[2])`. -/
def reasonOf (m : List Char × Option (List Char)) : String :=
  (jsGet (parseAttributes m.1) "message").getD (String.mk (cleanFailureText m.2))

/-- The skipped block of the extractor: the skip reason is recorded only
when the computed reason is truthy. -/
def skipReasonOf (m : List Char × Option (List Char)) : Option String :=
  if (reasonOf m).isEmpty then none
  else some (String.mk (decodeHtml (reasonOf m).data))

/-- Construction of one `TestResult` from a matched testcase (attribute
fragment, optional body, number of previously collected records); body of
the `while` loop of `parseTestCases`. -/
def mkRecord (attrsFrag : List Char) (bodyOpt : Option (List Char))
    (count : Nat) : TestResult :=
  let attrs := parseAttributes attrsFrag
  let body := bodyOpt.getD []
  let failureM := failureMarker body
  let skippedM := skippedMarker body
  let status : TestStatus :=
    if failureM.isSome then .failed
    else if skippedM.isSome then .skipped
    else .passed
  let nameAttr := jsGet attrs "name"
  { id := recordIdOf attrs count
    title := String.mk (decodeHtml ((nameAttr.getD "Unnamed Test").data))
    file := ((jsGet attrs "classname").orElse (fun _ => jsGet attrs "file")).getD "unknown"
    status := status
    durationMs := parseDuration (jsGet attrs "time")
    requirements := []
    skipReason := skippedM.bind skipReasonOf
    error := failureM.map errorOf }

/-- One anchored match attempt of the testcase regex immediately after the
literal `<testcase`: word boundary, greedy attribute fragment up to the
first `>`, then either a body closed by the first following `</testcase>`
or a self-closing `/>`.  Mirrors the JavaScript backtracking order: the
closed-body alternative wins whenever a `</testcase>` occurs later, even
after a `/>`. -/
def matchTestcaseAt (r : List Char) :
    Option (List Char × Option (List Char) × List Char) :=
  if (r.head?.map isWordChar).getD false then none
  else
    match splitOnFirst ['>'] r with
    | none => none
    | some (pre, after) =>
      match splitOnFirst tcClose after with
      | some (body, rem) => some (pre, some body, rem)
      | none =>
        if pre.getLast? = some '/' then some (pre.dropLast, none, after) else none

/-- The global `exec` loop of `parseTestCases`: find the next literal
`<testcase`, attempt an anchored match, emit a record and continue after
the match on success, otherwise continue after the literal. -/
def parseLoop : Nat → List Char → Nat → List TestResult
  | 0, _, _ => []
  | fuel + 1, s, count =>
    match splitOnFirst tcOpen s with
    | none => []
    | some (_, rest) =>
      match matchTestcaseAt rest with
      | none => parseLoop fuel rest count
      | some (attrsFrag, bodyOpt, rem) =>
        mkRecord attrsFrag bodyOpt count :: parseLoop fuel rem (count + 1)

/-- `parseTestCases` of the reporter. -/
def parseTestCases (xml : String) : List TestResult :=
  parseLoop (xml.data.length + 1) xml.data 0

/-! ## Capability predicate (`capabilities.ts`) -/

/-- `requires(...caps)(serverCaps)`: true when every requested capability
token occurs, as an exact string, in the declared list. -/
def requires (caps : List String) (serverCaps : List String) : Bool :=
  caps.all (fun c => serverCaps.contains c)

/-- `hasCapability(serverCaps, cap)`. -/
def hasCapability (serverCaps : List String) (cap : String) : Bool :=
  serverCaps.contains cap

/-! ## Result bundle (`writeRunResultsFromJUnit`) -/

structure Summary where
  passed : Nat
  failed : Nat
  skipped : Nat
  durationMs : Int
deriving DecidableEq, Repr

structure RunMeta where
  runId : String
  target : String
  specVersion : Option String
  baseUrl : String
  capabilities : List String
deriving Repr

structure RunResults where
  runId : String
  target : String
  specVersion : Option String
  baseUrl : String
  capabilities : List String
  summary : Summary
  tests : List TestResult
deriving Repr

/-- One step of the `reduce` that builds the summary in
`writeRunResultsFromJUnit`: increment the field of the record's status
and accumulate its duration. -/
def summarizeStep (acc : Summary) (t : TestResult) : Summary :=
  let acc1 :=
    match t.status with
    | .passed => { acc with passed := acc.passed + 1 }
    | .failed => { acc with failed := acc.failed + 1 }
    | .skipped => { acc with skipped := acc.skipped + 1 }
  { acc1 with durationMs := acc1.durationMs + t.durationMs }

/-- The summary `reduce` of `writeRunResultsFromJUnit`. -/
def summarize (tests : List TestResult) : Summary :=
  tests.foldl summarizeStep { passed := 0, failed := 0, skipped := 0, durationMs := 0 }

/-- Pure core of `writeRunResultsFromJUnit`: the payload built from the
raw JUnit output text (file reading and writing happen outside). -/
def writeRunResultsFromJUnit (xml : String) (meta : RunMeta) : RunResults :=
  let tests := parseTestCases xml
  { runId := meta.runId
    target := meta.target
    specVersion := meta.specVersion
    baseUrl := meta.baseUrl
    capabilities := meta.capabilities
    summary := summarize tests
    tests := tests }

/-! ## Feature matrix (`feature-matrix.ts`) -/

/-- Insertion-ordered set union, modelling `Set.add` over the loop in
`writeFeatureMatrix`. -/
def setAddAll (acc : List String) (xs : List String) : List String :=
  xs.foldl (fun a x => if a.contains x then a else a ++ [x]) acc

/-- The capability tokens referenced by any test's requirements. -/
def allRequiredCaps (tests : List TestResult) : List String :=
  tests.foldl (fun a t => setAddAll a t.requirements) []

/-- Pure core of `writeFeatureMatrix`: the rows of the coverage table,
header row first, then one row per referenced capability in sorted
order. -/
def featureMatrixRows (capabilities : List String)
    (tests : List TestResult) : List (List String) :=
  let sortedCaps := (allRequiredCaps tests).mergeSort (fun a b => a ≤ b)
  ["Capability", "Supported", "Notes"] ::
    sortedCaps.map (fun cap =>
      [cap, if capabilities.contains cap then "✅" else "❌", ""])

/-! ## Bounded log capture (`startProcessTarget` in the orchestrator) -/

/-- `LOGGING.MAX_LOG_ENTRIES` from `constants.ts`. -/
def MAX_LOG_ENTRIES : Nat := 1000

/-- The stdout/stderr data handler of `startProcessTarget`: push the new
message only while the buffer holds fewer than the maximum number of
entries. -/
def pushLogEntry (logs : List String) (msg : String) : List String :=
  if logs.length < MAX_LOG_ENTRIES then logs ++ [msg] else logs

/-- Buffer contents after a stream of messages has been handled. -/
def captureLogs (msgs : List String) : List String :=
  msgs.foldl pushLogEntry []

/-! ## Target driver control flow (`runTargetTests` in `index.ts`) -/

inductive StepOutcome
  | ok
  | throws
deriving DecidableEq, Repr

/-- Which awaited steps of one target's run reject.  `startTarget`
succeeding is what the spec calls a successfully-started target. -/
structure TargetRunBehavior where
  loadConfig : StepOutcome
  startTarget : StepOutcome
  writeServerInfo : StepOutcome
  runVitest : StepOutcome
  generateReports : StepOutcome
  stopTarget : StepOutcome
deriving DecidableEq, Repr

inductive RunEvent
  | loadConfigCall
  | startCall
  | serverInfoCall
  | vitestCall
  | reportsCall
  | stopCall
deriving DecidableEq, Repr

/-- The `try` block of `runTargetTests`: each awaited call is recorded
when it is made; a rejection aborts the rest of the block. -/
def runTryBlock (b : TargetRunBehavior) : List RunEvent × Bool :=
  let t1 := [RunEvent.startCall]
  if b.startTarget = .throws then (t1, true)
  else
    let t2 := t1 ++ [RunEvent.serverInfoCall]
    if b.writeServerInfo = .throws then (t2, true)
    else
      let t3 := t2 ++ [RunEvent.vitestCall]
      if b.runVitest = .throws then (t3, true)
      else
        let t4 := t3 ++ [RunEvent.reportsCall]
        (t4, b.generateReports = .throws)

/-- Trace of `runTargetTests` for one target: `loadServerConfig` is
awaited before the `try`; the `catch` swallows the error; the `finally`
invokes `target.stop()` exactly when the `target` variable was assigned,
i.e. when `startTarget` resolved, and `.catch` swallows any rejection of
`stop()` itself. -/
def runTargetTests (b : TargetRunBehavior) : List RunEvent :=
  let t0 := [RunEvent.loadConfigCall]
  if b.loadConfig = .throws then t0
  else
    let tr := (runTryBlock b).1
    let targetAssigned := b.startTarget = .ok
    if targetAssigned then t0 ++ tr ++ [RunEvent.stopCall] else t0 ++ tr

/-! ## Well-formed raw testcase entries and their rendering -/

/-- A raw testcase entry: an attribute fragment and a body, rendered in
the closed form `<testcase` ++ attrs ++ `>` ++ body ++ `</testcase>`. -/
structure RawEntry where
  attrs : List Char
  body : List Char
deriving Repr

def renderEntry (e : RawEntry) : List Char :=
  tcOpen ++ e.attrs ++ '>' :: (e.body ++ tcClose)

/-- Raw output text consisting of exactly the given entries, in order. -/
def renderAll : List RawEntry → List Char
  | [] => []
  | e :: es => renderEntry e ++ renderAll es

/-- Well-formedness of an entry: the attribute fragment does not start
with a word character (the `\b` of the regex holds), contains no `>`,
and the body contains no premature `</testcase>`. -/
def RawEntry.wf (e : RawEntry) : Prop :=
  (e.attrs.head?.map isWordChar).getD false = false ∧
    '>' ∉ e.attrs ∧ ¬ tcClose <:+: e.body

instance (e : RawEntry) : Decidable e.wf := by
  unfold RawEntry.wf; infer_instance

/-- The records the extractor is expected to produce for rendered
entries, starting at record index `n`. -/
def recordsOf : List RawEntry → Nat → List TestResult
  | [], _ => []
  | e :: es, n => mkRecord e.attrs (some e.body) n :: recordsOf es (n + 1)

/-! ## Summary counting -/

/-- Number of records of a given status. -/
def countStatus (st : TestStatus) (tests : List TestResult) : Nat :=
  tests.countP (fun t => t.status = st)

/-- Sum of the records' durations. -/
def totalDuration (tests : List TestResult) : Int :=
  (tests.map (fun t => t.durationMs)).sum

/-! ## Concrete inputs used by the claim theorems -/

def sampleEntries : List RawEntry :=
  [ { attrs := " classname=\"suite\" name=\"ok\" time=\"1.5\"".data, body := [] },
    { attrs := " classname=\"suite\" name=\"bad\" time=\"0.25\"".data,
      body := "<failure message=\"boom\"></failure>".data },
    { attrs := " classname=\"suite\" name=\"skip\"".data,
      body := "<skipped message=\"nope\"/>".data } ]

def sampleMeta : RunMeta :=
  { runId := "run-1", target := "srv", specVersion := none,
    baseUrl := "http://localhost:3000", capabilities := ["core:health"] }

def bothMarkersBody : List Char :=
  "<failure message=\"f\"></failure><skipped message=\"s\"/>".data

def skipOnlyBody : List Char := "<skipped message=\"s\"/>".data

def c4xml : String :=
  String.mk ("<testcase name=\"dual\"><failure message=\"boom\"></failure>".data
    ++ "<skipped message=\"slow\"/></testcase>".data
    ++ "<testcase name=\"bare\"><skipped/></testcase>".data)

def c6xml : String :=
  String.mk ("<testcase classname=\"c\" name=\"n\"></testcase>".data
    ++ "<testcase classname=\"c\" name=\"n\"></testcase>".data)

def c6entries : List RawEntry :=
  [ { attrs := " classname=\"c\" name=\"n\"".data, body := [] },
    { attrs := " classname=\"c\" name=\"n\"".data, body := [] } ]

/-! ## Properties of the splitting primitive -/

theorem startsWith_iff (p : List Char) : ∀ s, startsWith p s = true ↔ p <+: s := by
  induction p with
  | nil => intro s; simp [startsWith]
  | cons x xs ih =>
    intro s
    cases s with
    | nil => simp [startsWith]
    | cons c cs => simp [startsWith, List.cons_prefix_cons, ih]

theorem splitOnFirst_sound (pat : List Char) :
    ∀ s a b, splitOnFirst pat s = some (a, b) → s = a ++ pat ++ b := by
  intro s
  induction s with
  | nil => intro a b h; simp [splitOnFirst] at h
  | cons c cs ih =>
    intro a b h
    rw [splitOnFirst] at h
    split at h
    · next hsw =>
      simp only [Option.some.injEq, Prod.mk.injEq] at h
      obtain ⟨h1, h2⟩ := h
      subst h1; subst h2
      have hp : pat <+: c :: cs := (startsWith_iff pat (c :: cs)).mp hsw
      have := List.prefix_iff_eq_append.mp hp
      simpa using this.symm
    · next hsw =>
      cases hm : splitOnFirst pat cs with
      | none => rw [hm] at h; simp at h
      | some pr =>
        obtain ⟨pre, post⟩ := pr
        rw [hm] at h
        simp only [Option.some.injEq, Prod.mk.injEq] at h
        obtain ⟨h1, h2⟩ := h
        subst h1; subst h2
        have := ih pre post hm
        simp [this]

theorem splitOnFirst_post_length {pat s a b : List Char} (hp : pat ≠ [])
    (h : splitOnFirst pat s = some (a, b)) : b.length < s.length := by
  have hs := splitOnFirst_sound pat s a b h
  have h1 : 1 ≤ pat.length := List.length_pos.mpr hp
  rw [hs]
  simp [List.length_append]
  omega

/-- A border-free pattern cannot begin before position `|a|` inside
`a ++ pat ++ b` unless it already occurs inside `a`. -/
theorem not_prefix_append_of_noBorder {pat a b : List Char}
    (hnb : NoBorder pat) (ha : ¬ pat <:+: a) (hane : a ≠ []) :
    ¬ pat <+: a ++ pat ++ b := by
  intro hpre
  obtain ⟨t, ht⟩ := hpre
  have htake := congrArg (List.take pat.length) ht
  rw [List.append_assoc a pat b] at htake
  rw [List.take_append_eq_append_take, List.take_append_eq_append_take] at htake
  simp only [List.take_length, Nat.sub_self, List.take_zero, List.append_nil] at htake
  rcases le_or_lt pat.length a.length with hle | hlt
  · -- the occurrence would lie inside `a`
    have h0 : pat.length - a.length = 0 := Nat.sub_eq_zero_of_le hle
    rw [h0] at htake
    simp only [List.take_zero, List.append_nil] at htake
    refine ha ?_
    rw [htake]
    exact (List.take_prefix _ _).isInfix
  · -- the occurrence straddles the boundary: produces a border of `pat`
    have hka : a.length < pat.length := hlt
    have h1 : a.take pat.length = a := List.take_of_length_le (Nat.le_of_lt hlt)
    rw [h1, List.take_append_eq_append_take] at htake
    have h2 : pat.length - a.length - pat.length = 0 := by omega
    rw [h2] at htake
    simp only [List.take_zero, List.append_nil] at htake
    -- htake : pat = a ++ pat.take (pat.length - a.length)
    have hk0 : 0 < a.length := List.length_pos.mpr hane
    have hdrop : pat.drop a.length = pat.take (pat.length - a.length) := by
      have := congrArg (List.drop a.length) htake
      rwa [List.drop_left] at this
    have := hnb (pat.length - a.length) (by omega) (by omega)
    rw [Nat.sub_sub_self (Nat.le_of_lt hlt)] at this
    exact this hdrop.symm

/-- Splitting at the leftmost occurrence finds exactly the occurrence after
`a` when `pat` has no border and does not occur inside `a`. -/
theorem splitOnFirst_first_occurrence (pat : List Char) (hne : pat ≠ [])
    (hnb : NoBorder pat) :
    ∀ a b, ¬ pat <:+: a → splitOnFirst pat (a ++ pat ++ b) = some (a, b) := by
  intro a
  induction a with
  | nil =>
    intro b _
    obtain ⟨p, ps, rfl⟩ : ∃ p ps, pat = p :: ps := by
      cases pat with
      | nil => exact absurd rfl hne
      | cons p ps => exact ⟨p, ps, rfl⟩
    have hsw : startsWith (p :: ps) ((p :: ps) ++ b) = true :=
      (startsWith_iff _ _).mpr (List.prefix_append _ _)
    simp only [List.nil_append]
    rw [List.cons_append, splitOnFirst, ← List.cons_append, if_pos hsw]
    rw [List.drop_left]
  | cons c a2 ih =>
    intro b hinf
    have hsw : startsWith pat ((c :: a2) ++ pat ++ b) = false := by
      rw [Bool.eq_false_iff]
      intro hcon
      exact not_prefix_append_of_noBorder hnb hinf (by simp)
        ((startsWith_iff pat _).mp hcon)
    have ha2 : ¬ pat <:+: a2 := fun h => hinf (List.infix_cons h)
    rw [List.cons_append, List.cons_append, splitOnFirst]
    rw [← List.cons_append, ← List.cons_append, hsw]
    simp only [Bool.false_eq_true, if_false]
    rw [ih b ha2]

theorem singleton_infix_iff (x : Char) (l : List Char) : [x] <:+: l ↔ x ∈ l := by
  constructor
  · rintro ⟨s, t, rfl⟩; simp
  · intro hx
    obtain ⟨s, t, rfl⟩ := List.append_of_mem hx
    exact ⟨s, t, by simp⟩

theorem tcOpen_ne_nil : tcOpen ≠ [] := by decide

theorem tcClose_ne_nil : tcClose ≠ [] := by decide

theorem noBorder_tcOpen : NoBorder tcOpen := by decide

theorem noBorder_tcClose : NoBorder tcClose := by decide

theorem matchTestcaseAt_render (e : RawEntry) (tail : List Char) (h : e.wf) :
    matchTestcaseAt (e.attrs ++ '>' :: (e.body ++ tcClose ++ tail))
      = some (e.attrs, some e.body, tail) := by
  obtain ⟨attrs, body⟩ := e
  obtain ⟨hh, hgt, hcl⟩ := h
  simp only at hh hgt hcl
  have hhead :
      (((attrs ++ '>' :: (body ++ tcClose ++ tail)).head?).map isWordChar).getD false
        = false := by
    cases attrs with
    | nil => simp [isWordChar]
    | cons c cs => simpa using hh
  have h1 : splitOnFirst ['>'] (attrs ++ '>' :: (body ++ tcClose ++ tail))
      = some (attrs, body ++ tcClose ++ tail) := by
    have := splitOnFirst_first_occurrence ['>'] (by decide) (by decide)
      attrs (body ++ tcClose ++ tail)
      (fun hc => hgt ((singleton_infix_iff '>' attrs).mp hc))
    simpa using this
  have h2 : splitOnFirst tcClose (body ++ tcClose ++ tail)
      = some (body, tail) :=
    splitOnFirst_first_occurrence tcClose tcClose_ne_nil noBorder_tcClose body tail hcl
  unfold matchTestcaseAt
  rw [hhead]
  simp only [Bool.false_eq_true, if_false, h1, h2]

theorem parseLoop_render_step (e : RawEntry) (tail : List Char) (h : e.wf)
    (fuel n : Nat) :
    parseLoop (fuel + 1) (renderEntry e ++ tail) n
      = mkRecord e.attrs (some e.body) n :: parseLoop fuel tail (n + 1) := by
  have hshape : renderEntry e ++ tail
      = tcOpen ++ (e.attrs ++ '>' :: (e.body ++ tcClose ++ tail)) := by
    simp [renderEntry, List.append_assoc]
  have h1 : splitOnFirst tcOpen (renderEntry e ++ tail)
      = some ([], e.attrs ++ '>' :: (e.body ++ tcClose ++ tail)) := by
    rw [hshape]
    have := splitOnFirst_first_occurrence tcOpen tcOpen_ne_nil noBorder_tcOpen
      [] (e.attrs ++ '>' :: (e.body ++ tcClose ++ tail))
      (by simpa using tcOpen_ne_nil)
    simpa using this
  rw [parseLoop]
  simp only [h1, matchTestcaseAt_render e tail h]

theorem parseLoop_renderAll (es : List RawEntry) (h : ∀ e ∈ es, e.wf) :
    ∀ fuel n, (renderAll es).length < fuel →
      parseLoop fuel (renderAll es) n = recordsOf es n := by
  induction es with
  | nil =>
    intro fuel n hf
    match fuel, hf with
    | f + 1, _ => rw [renderAll, parseLoop]; rfl
  | cons e es ih =>
    intro fuel n hf
    match fuel, hf with
    | f + 1, hf =>
      rw [renderAll, parseLoop_render_step e (renderAll es) (h e (by simp)) f n]
      have hlen : (renderAll es).length < f := by
        rw [renderAll] at hf
        have : 21 ≤ (renderEntry e).length := by
          simp [renderEntry, tcOpen, tcClose]
          omega
        simp only [List.length_append] at hf
        omega
      rw [ih (fun e2 he2 => h e2 (by simp [he2])) f (n + 1) hlen, recordsOf]

/-- The extractor on raw output consisting of well-formed entries. -/
theorem parseTestCases_render (es : List RawEntry) (h : ∀ e ∈ es, e.wf) :
    parseTestCases (String.mk (renderAll es)) = recordsOf es 0 := by
  unfold parseTestCases
  exact parseLoop_renderAll es h _ 0 (by simp)

theorem recordsOf_length (es : List RawEntry) : ∀ n, (recordsOf es n).length = es.length := by
  induction es with
  | nil => intro n; rfl
  | cons e es ih => intro n; rw [recordsOf]; simp [ih]

/-! ## General facts about the extraction loop -/

theorem matchTestcaseAt_rem_length {r g : List Char} {b : Option (List Char)}
    {rem : List Char} (h : matchTestcaseAt r = some (g, b, rem)) :
    rem.length < r.length := by
  unfold matchTestcaseAt at h
  split at h
  · simp at h
  · cases h1 : splitOnFirst ['>'] r with
    | none => rw [h1] at h; simp at h
    | some pr =>
      obtain ⟨pre, after⟩ := pr
      rw [h1] at h
      dsimp only at h
      have hs1 := splitOnFirst_sound _ _ _ _ h1
      cases h2 : splitOnFirst tcClose after with
      | some pr2 =>
        obtain ⟨body, rem2⟩ := pr2
        rw [h2] at h
        simp only [Option.some.injEq, Prod.mk.injEq] at h
        obtain ⟨-, -, hrem⟩ := h
        subst hrem
        have hs2 := splitOnFirst_sound _ _ _ _ h2
        rw [hs1, hs2]
        simp only [List.length_append, List.length_cons]
        omega
      | none =>
        rw [h2] at h
        by_cases hsl : pre.getLast? = some '/'
        · rw [if_pos hsl] at h
          simp only [Option.some.injEq, Prod.mk.injEq] at h
          obtain ⟨-, -, hrem⟩ := h
          subst hrem
          rw [hs1]
          simp only [List.length_append, List.length_cons]
          omega
        · rw [if_neg hsl] at h
          simp at h

/-- The extraction loop never produces more records than there are
characters of input: it is total and consumes input as it goes. -/
theorem parseLoop_length_le : ∀ fuel s n, (parseLoop fuel s n).length ≤ s.length := by
  intro fuel
  induction fuel with
  | zero => intro s n; simp [parseLoop]
  | succ f ih =>
    intro s n
    rw [parseLoop]
    cases h1 : splitOnFirst tcOpen s with
    | none => simp
    | some pr =>
      obtain ⟨pre, rest⟩ := pr
      dsimp only
      have hrest : rest.length < s.length := splitOnFirst_post_length tcOpen_ne_nil h1
      cases h2 : matchTestcaseAt rest with
      | none =>
        dsimp only
        exact le_trans (ih rest n) (le_of_lt hrest)
      | some m =>
        obtain ⟨g, b, rem⟩ := m
        dsimp only
        have hrem : rem.length < rest.length := matchTestcaseAt_rem_length h2
        have := ih rem (n + 1)
        simp only [List.length_cons]
        omega

/-- Every record the extraction loop produces carries an empty
requirements list. -/
theorem parseLoop_requirements :
    ∀ fuel s n r, r ∈ parseLoop fuel s n → r.requirements = [] := by
  intro fuel
  induction fuel with
  | zero => intro s n r hr; simp [parseLoop] at hr
  | succ f ih =>
    intro s n r hr
    rw [parseLoop] at hr
    cases h1 : splitOnFirst tcOpen s with
    | none => rw [h1] at hr; simp at hr
    | some pr =>
      obtain ⟨pre, rest⟩ := pr
      rw [h1] at hr
      dsimp only at hr
      cases h2 : matchTestcaseAt rest with
      | none =>
        rw [h2] at hr
        dsimp only at hr
        exact ih rest n r hr
      | some m =>
        obtain ⟨g, b, rem⟩ := m
        rw [h2] at hr
        dsimp only at hr
        simp only [List.mem_cons] at hr
        cases hr with
        | inl hr => subst hr; rfl
        | inr hr => exact ih rem (n + 1) r hr

theorem summarize_foldl (tests : List TestResult) :
    ∀ acc, tests.foldl summarizeStep acc =
      { passed := acc.passed + countStatus .passed tests,
        failed := acc.failed + countStatus .failed tests,
        skipped := acc.skipped + countStatus .skipped tests,
        durationMs := acc.durationMs + totalDuration tests } := by
  induction tests with
  | nil =>
    intro acc
    obtain ⟨p, f, s, d⟩ := acc
    simp [countStatus, totalDuration]
  | cons t ts ih =>
    intro acc
    rw [List.foldl_cons, ih]
    obtain ⟨p, f, s, d⟩ := acc
    cases h : t.status <;>
      simp [summarizeStep, h, countStatus, List.countP_cons, totalDuration] <;>
      omega

/-- The summary of `writeRunResultsFromJUnit` counts each status and sums
the durations of the record list it is computed from. -/
theorem summarize_spec (tests : List TestResult) :
    summarize tests =
      { passed := countStatus .passed tests,
        failed := countStatus .failed tests,
        skipped := countStatus .skipped tests,
        durationMs := totalDuration tests } := by
  rw [summarize, summarize_foldl]
  simp

/-! ## Claims -/

/-- C1: for every list of required capability tokens `R` and every
declared capability list `D`, the predicate returned by `requires(...R)`
applied to `D` is true iff every token of `R` occurs (exact string) in
`D`; for an empty `R` the predicate is true for every `D`. -/
theorem c1_requires_iff_subset (R D : List String) :
    (requires R D = true ↔ ∀ c ∈ R, c ∈ D) ∧ requires [] D = true := by
  constructor
  · simp [requires, List.all_eq_true]
  · rfl

/-- C2: for every behaviour in which `loadServerConfig` resolves and
`startTarget` resolves (a `StartedTarget` is returned), the trace of
`runTargetTests` contains exactly one `stop()` call — both when the
subsequent steps all resolve and when any of them rejects, and whatever
`stop()` itself does; never zero and never two. -/
theorem c2_stop_exactly_once (b : TargetRunBehavior)
    (hload : b.loadConfig = .ok) (hstart : b.startTarget = .ok) :
    (runTargetTests b).count RunEvent.stopCall = 1 := by
  obtain ⟨lc, st, wsi, rv, gr, stp⟩ := b
  simp only at hload hstart
  subst hload; subst hstart
  cases wsi <;> cases rv <;> cases gr <;> cases stp <;> decide

theorem c2_stop_exactly_once_witness :
    (runTargetTests
      { loadConfig := .ok, startTarget := .ok, writeServerInfo := .ok,
        runVitest := .throws, generateReports := .ok,
        stopTarget := .throws }).count RunEvent.stopCall = 1 :=
  c2_stop_exactly_once _ rfl rfl

/-- C8: the extractor converts the `time` attribute from fractional
seconds to rounded integer milliseconds — `1.234` gives exactly `1234`
(and half-milliseconds round up) — while a missing, empty, unparsable, or
non-finite value gives exactly `0`. -/
theorem c8_parseDuration_values :
    parseDuration (some "1.234") = 1234 ∧
    parseDuration none = 0 ∧
    parseDuration (some "") = 0 ∧
    parseDuration (some "not-a-number") = 0 ∧
    parseDuration (some "Infinity") = 0 ∧
    parseDuration (some "0.0015") = 2 ∧
    parseDuration (some "0.0004") = 0 ∧
    parseDuration (some "2") = 2000 := by
  decide

/-- C9 counterexample: the log buffer of a local-command target does not
have drop-oldest semantics.  With the buffer full, a newly arriving entry
leaves the buffer unchanged: the new entry is dropped and the oldest
entry is still there. -/
theorem c9_counterexample :
    pushLogEntry (List.replicate MAX_LOG_ENTRIES "old") "new"
        = List.replicate MAX_LOG_ENTRIES "old" ∧
    "new" ∉ pushLogEntry (List.replicate MAX_LOG_ENTRIES "old") "new" := by
  have hfull : pushLogEntry (List.replicate MAX_LOG_ENTRIES "old") "new"
      = List.replicate MAX_LOG_ENTRIES "old" := by
    unfold pushLogEntry
    rw [List.length_replicate, if_neg (by omega)]
  refine ⟨hfull, ?_⟩
  rw [hfull]
  intro hmem
  rw [List.mem_replicate] at hmem
  exact absurd hmem.2 (by decide)

theorem pushLogEntry_length_le {logs : List String} (msg : String)
    (h : logs.length ≤ MAX_LOG_ENTRIES) :
    (pushLogEntry logs msg).length ≤ MAX_LOG_ENTRIES := by
  unfold pushLogEntry
  split
  · simp only [List.length_append, List.length_cons, List.length_nil]
    omega
  · exact h

/-- C9 (amended): the captured log collection is a fixed-capacity buffer
with drop-newest semantics: it never holds more than
`LOGGING.MAX_LOG_ENTRIES` entries, and once it is full a newly arriving
entry is discarded while all buffered entries (including the oldest) are
retained unchanged. -/
theorem c9_amended :
    (∀ msgs : List String, (captureLogs msgs).length ≤ MAX_LOG_ENTRIES) ∧
    (∀ (logs : List String) (msg : String),
      MAX_LOG_ENTRIES ≤ logs.length → pushLogEntry logs msg = logs) := by
  constructor
  · intro msgs
    suffices hgen : ∀ (acc : List String), acc.length ≤ MAX_LOG_ENTRIES →
        (msgs.foldl pushLogEntry acc).length ≤ MAX_LOG_ENTRIES by
      exact hgen [] (by simp)
    induction msgs with
    | nil => intro acc hacc; simpa using hacc
    | cons m ms ih =>
      intro acc hacc
      rw [List.foldl_cons]
      exact ih _ (pushLogEntry_length_le m hacc)
  · intro logs msg hfull
    unfold pushLogEntry
    rw [if_neg (by omega)]

theorem c9_amended_witness :
    pushLogEntry (List.replicate 1000 "x") "y" = List.replicate 1000 "x" :=
  c9_amended.2 (List.replicate 1000 "x") "y" (by rw [List.length_replicate]; decide)

/-- C10: every record the extractor produces has an empty requirements
list, so the coverage table `writeFeatureMatrix` computes from those
records consists of the header row only, whatever the target's declared
capabilities. -/
theorem c10_requirements_always_empty (xml : String) (caps : List String) :
    (∀ r ∈ parseTestCases xml, r.requirements = []) ∧
    featureMatrixRows caps (parseTestCases xml)
        = [["Capability", "Supported", "Notes"]] := by
  have hreq : ∀ r ∈ parseTestCases xml, r.requirements = [] :=
    fun r hr => parseLoop_requirements _ _ _ r hr
  refine ⟨hreq, ?_⟩
  have hcaps : allRequiredCaps (parseTestCases xml) = [] := by
    unfold allRequiredCaps
    suffices hgen : ∀ (tests : List TestResult) (acc : List String),
        (∀ r ∈ tests, r.requirements = []) →
        (tests.foldl (fun a t => setAddAll a t.requirements) acc) = acc by
      exact hgen _ [] hreq
    intro tests
    induction tests with
    | nil => intro acc _; rfl
    | cons t ts ih =>
      intro acc hall
      rw [List.foldl_cons, hall t (by simp), ih _ (fun r hr => hall r (by simp [hr]))]
      rfl
  unfold featureMatrixRows
  rw [hcaps]
  simp [List.mergeSort_nil]

/-- C3: raw output consisting of `N` well-formed testcase entries (any
mix of passed, failed and skipped bodies) yields a bundle whose tests
list has exactly `N` records, and whose summary counts each status over
that list and sums its durations. -/
theorem c3_bundle_counts (es : List RawEntry) (meta : RunMeta)
    (h : ∀ e ∈ es, e.wf) :
    (writeRunResultsFromJUnit (String.mk (renderAll es)) meta).tests.length = es.length ∧
    (writeRunResultsFromJUnit (String.mk (renderAll es)) meta).summary =
      { passed := countStatus .passed (writeRunResultsFromJUnit (String.mk (renderAll es)) meta).tests,
        failed := countStatus .failed (writeRunResultsFromJUnit (String.mk (renderAll es)) meta).tests,
        skipped := countStatus .skipped (writeRunResultsFromJUnit (String.mk (renderAll es)) meta).tests,
        durationMs := totalDuration (writeRunResultsFromJUnit (String.mk (renderAll es)) meta).tests } := by
  have htests : (writeRunResultsFromJUnit (String.mk (renderAll es)) meta).tests
      = recordsOf es 0 := by
    unfold writeRunResultsFromJUnit
    simp only
    exact parseTestCases_render es h
  have hsummary : (writeRunResultsFromJUnit (String.mk (renderAll es)) meta).summary
      = summarize ((writeRunResultsFromJUnit (String.mk (renderAll es)) meta).tests) := rfl
  constructor
  · rw [htests, recordsOf_length]
  · rw [hsummary, summarize_spec]

theorem c3_bundle_counts_witness :
    (writeRunResultsFromJUnit (String.mk (renderAll sampleEntries)) sampleMeta).tests.length
        = sampleEntries.length ∧
    (writeRunResultsFromJUnit (String.mk (renderAll sampleEntries)) sampleMeta).summary =
      { passed := countStatus .passed (writeRunResultsFromJUnit (String.mk (renderAll sampleEntries)) sampleMeta).tests,
        failed := countStatus .failed (writeRunResultsFromJUnit (String.mk (renderAll sampleEntries)) sampleMeta).tests,
        skipped := countStatus .skipped (writeRunResultsFromJUnit (String.mk (renderAll sampleEntries)) sampleMeta).tests,
        durationMs := totalDuration (writeRunResultsFromJUnit (String.mk (renderAll sampleEntries)) sampleMeta).tests } :=
  c3_bundle_counts sampleEntries sampleMeta (by decide)

/-- C5: status is assigned by marker precedence — a failure marker in the
body makes the record failed (also when a skipped marker is present);
otherwise a skipped marker makes it skipped; otherwise it is passed. -/
theorem c5_status_precedence (attrsFrag : List Char)
    (bodyOpt : Option (List Char)) (n : Nat) :
    ((failureMarker (bodyOpt.getD [])).isSome = true →
        (mkRecord attrsFrag bodyOpt n).status = .failed) ∧
    ((failureMarker (bodyOpt.getD [])).isSome = false →
      (skippedMarker (bodyOpt.getD [])).isSome = true →
        (mkRecord attrsFrag bodyOpt n).status = .skipped) ∧
    ((failureMarker (bodyOpt.getD [])).isSome = false →
      (skippedMarker (bodyOpt.getD [])).isSome = false →
        (mkRecord attrsFrag bodyOpt n).status = .passed) := by
  refine ⟨fun h1 => ?_, fun h1 h2 => ?_, fun h1 h2 => ?_⟩
  · simp [mkRecord, h1]
  · simp [mkRecord, h1, h2]
  · simp [mkRecord, h1, h2]

theorem c5_status_precedence_witness :
    (mkRecord " name=\"t\"".data (some bothMarkersBody) 0).status = .failed ∧
    (mkRecord " name=\"t\"".data (some skipOnlyBody) 0).status = .skipped ∧
    (mkRecord " name=\"t\"".data (some []) 0).status = .passed :=
  ⟨(c5_status_precedence " name=\"t\"".data (some bothMarkersBody) 0).1 (by decide),
   (c5_status_precedence " name=\"t\"".data (some skipOnlyBody) 0).2.1
     (by decide) (by decide),
   (c5_status_precedence " name=\"t\"".data (some []) 0).2.2
     (by decide) (by decide)⟩

set_option maxRecDepth 8000 in
/-- C4 counterexample: on a testcase carrying both a failure and a
skipped marker the produced record is failed yet carries a skip reason,
and a skipped marker without any reason leaves a skipped record without
one — the claimed status/error/skipReason exclusivity rule is violated. -/
theorem c4_counterexample :
    ¬ (∀ r ∈ parseTestCases c4xml,
        (r.error.isSome ↔ r.status = .failed) ∧
        (r.skipReason.isSome ↔ r.status = .skipped) ∧
        ¬ (r.error.isSome = true ∧ r.skipReason.isSome = true)) := by
  decide

/-- C4 (amended): the error field is present iff the record is failed;
the skipReason field is present iff the body contains a skipped marker
whose computed reason is nonempty — independently of the status, so a
record that is failed because of marker precedence still carries the skip
reason, and a skipped record whose marker has no reason carries none. -/
theorem c4_amended (attrsFrag : List Char) (bodyOpt : Option (List Char))
    (n : Nat) :
    ((mkRecord attrsFrag bodyOpt n).error.isSome
        ↔ (mkRecord attrsFrag bodyOpt n).status = .failed) ∧
    ((mkRecord attrsFrag bodyOpt n).skipReason.isSome
        ↔ ∃ m, skippedMarker (bodyOpt.getD []) = some m ∧ reasonOf m ≠ "") := by
  constructor
  · cases hf : failureMarker (bodyOpt.getD []) with
    | none =>
      cases hs : skippedMarker (bodyOpt.getD []) with
      | none => simp [mkRecord, hf, hs]
      | some m => simp [mkRecord, hf, hs]
    | some m => simp [mkRecord, hf]
  · cases hs : skippedMarker (bodyOpt.getD []) with
    | none => simp [mkRecord, hs]
    | some m =>
      simp only [mkRecord, hs, Option.bind_some, Option.some.injEq]
      by_cases hr : (reasonOf m).isEmpty
      · have hre : reasonOf m = "" := (String.isEmpty_iff _).mp hr
        have hnone : skipReasonOf m = none := by
          unfold skipReasonOf
          rw [if_pos hr]
        simp [hnone, hre]
      · have hsome : (skipReasonOf m).isSome = true := by
          unfold skipReasonOf
          rw [if_neg hr]
          rfl
        simp [hsome]
        exact fun hcon => hr (by rw [hcon]; rfl)

/-- C6 counterexample: two testcase entries sharing the same classname
and name attributes receive the same id — the ids of one parse are not
pairwise distinct. -/
theorem c6_counterexample :
    ¬ ((parseTestCases c6xml).map (fun r => r.id)).Nodup := by
  decide

theorem recordsOf_map_id (es : List RawEntry) :
    ∀ n, (recordsOf es n).map (fun r => r.id)
      = (List.enumFrom n es).map (fun p => recordIdOf (parseAttributes p.2.attrs) p.1) := by
  induction es with
  | nil => intro n; rfl
  | cons e es ih =>
    intro n
    rw [recordsOf, List.enumFrom]
    simp only [List.map_cons, ih (n + 1)]
    rfl

/-- C6 (amended): each id is built from the parsed attributes as
`(classname || name || test-k) # (name ?? k)` with `k` the 1-based
record index, but this scheme does not guarantee uniqueness: a raw output
whose entries share classname and name yields duplicate ids. -/
theorem c6_amended (es : List RawEntry) (h : ∀ e ∈ es, e.wf) :
    ((parseTestCases (String.mk (renderAll es))).map (fun r => r.id)
        = (List.enumFrom 0 es).map (fun p => recordIdOf (parseAttributes p.2.attrs) p.1)) ∧
    ∃ xml : String, ¬ ((parseTestCases xml).map (fun r => r.id)).Nodup := by
  constructor
  · rw [parseTestCases_render es h, recordsOf_map_id]
  · exact ⟨c6xml, by decide⟩

theorem c6_amended_witness :
    ((parseTestCases (String.mk (renderAll c6entries))).map (fun r => r.id)
        = (List.enumFrom 0 c6entries).map (fun p => recordIdOf (parseAttributes p.2.attrs) p.1)) ∧
    ∃ xml : String, ¬ ((parseTestCases xml).map (fun r => r.id)).Nodup :=
  c6_amended c6entries (by decide)

/-- C7: the extractor is total — on every input string it yields a record
list (never more records than input characters) — and malformed or
partial fragments such as an unclosed testcase element are simply not
matched: they produce no record and do not disturb the records of the
well-formed fragments before them. -/
theorem c7_parse_total_and_tolerant :
    (∀ s : String, (parseTestCases s).length ≤ s.length) ∧
    parseTestCases "<testcase name=\"unclosed\">" = [] ∧
    parseTestCases "<testcase name=\"a\"></testcase><testcase name=\"b\">"
        = parseTestCases "<testcase name=\"a\"></testcase>" ∧
    (parseTestCases "<testcase name=\"a\"></testcase><testcase name=\"b\">").length = 1 := by
  refine ⟨?_, by decide, by decide, by decide⟩
  intro s
  exact parseLoop_length_le (s.data.length + 1) s.data 0

end WillItBlossom
